/-
Verification of `clean.py`, a script that scans a directory tree for
Proton Drive "edit conflict" files and, after confirmation, deletes them.

The Python source is shallowly embedded:
  * the compiled regular expression
    `re.compile(r"# Edit conflict \d{4}-\d{2}-\d{2} .* #")` together with
    `conflict_re.search(file)` becomes the executable matcher
    `conflictSearch` on lists of characters;
  * the filesystem is a finite tree `FSTree`; `os.walk` plus the scanning
    loop of `find_files` becomes the recursive function `find_files`,
    which also returns the console output so that verbosity can be
    reasoned about;
  * `os.remove` becomes a fallible operation on an explicit list of
    existing paths, and `remove_files` a fold that catches every error;
  * the `__main__` block becomes `main_model`, with the size summary,
    the confirmation prompt and the exit conditions made explicit.
-/
import Mathlib

namespace Clean

/-! ### The conflict regular expression

Python: `conflict_re = re.compile(r"# Edit conflict \d{4}-\d{2}-\d{2} .* #")`
used as `conflict_re.search(file)` (substring search on the filename).
`\d` is modelled as an ASCII decimal digit and `.` as any character other
than a newline, matching Python's default (non-DOTALL) semantics on the
ASCII filenames this program meets. -/

/-- Digit class `\d`: a decimal digit. -/
def isReDigit (c : Char) : Bool := '0' ≤ c && c ≤ '9'

/-- Dot class `.`: any character except a newline (Python default, no `re.DOTALL`). -/
def isDotChar (c : Char) : Bool := c ≠ '\n'

/-- Consume an exact literal from the front of the input, or fail. -/
def dropLit : List Char → List Char → Option (List Char)
  | [], s => some s
  | _ :: _, [] => none
  | c :: l, d :: s => if c = d then dropLit l s else none

/-- Consume exactly `n` digits (`\d{n}`) from the front of the input. -/
def dropDigits : Nat → List Char → Option (List Char)
  | 0, s => some s
  | _ + 1, [] => none
  | n + 1, c :: s => if isReDigit c then dropDigits n s else none

/-- Match the tail `.* #` of the pattern: some run of non-newline
characters followed by the literal `" #"` somewhere in the input. -/
def tailMatch : List Char → Bool
  | [] => false
  | [_] => false
  | c :: d :: rest =>
    (c = ' ' && d = '#') || (isDotChar c && tailMatch (d :: rest))

/-- The literal prefix of the pattern, as characters. -/
def conflictLit : List Char :=
  ['#', ' ', 'E', 'd', 'i', 't', ' ', 'c', 'o', 'n', 'f', 'l', 'i', 'c',
   't', ' ']

/-- Does the whole pattern `# Edit conflict \d{4}-\d{2}-\d{2} .* #` match
starting at the head of the input? -/
def matchConflictAt (s : List Char) : Bool :=
  (do
    let s ← dropLit conflictLit s
    let s ← dropDigits 4 s
    let s ← dropLit ['-'] s
    let s ← dropDigits 2 s
    let s ← dropLit ['-'] s
    let s ← dropDigits 2 s
    let s ← dropLit [' '] s
    pure s).elim false tailMatch

/-- Search as in `conflict_re.search`: does the pattern match at some position? -/
def conflictSearch : List Char → Bool
  | [] => false
  | c :: rest => matchConflictAt (c :: rest) || conflictSearch rest

theorem conflictSearch_sample_match :
    conflictSearch "report # Edit conflict 2024-01-15 v2 #.docx".toList = true := by decide

theorem conflictSearch_sample_no_match :
    conflictSearch "report_final.docx".toList = false := by decide

/-! ### The filesystem model

A directory tree: each directory holds a list of regular files (name and
byte size, the only metadata the script reads) and a list of named
subdirectories.  A path is the list of name components from the scan root. -/

mutual

/-- A directory: regular files (name, size in bytes) and subdirectories. -/
inductive FSTree : Type where
  | node : List (String × Nat) → FSDirList → FSTree

/-- The named subdirectories of a directory, in listing order. -/
inductive FSDirList : Type where
  | dnil : FSDirList
  | dcons : String → FSTree → FSDirList → FSDirList

end

/-- One line of console output.  The script only ever prints a `tqdm`
progress tick per directory walked, a per-file verbose line, or the
removal/abort reports; the payload is kept symbolic. -/
inductive OutLine : Type where
  | progressDir : List String → OutLine
  | foundConflict : List String → OutLine
  | skippingFile : List String → OutLine
  deriving DecidableEq

/-- The inner `for file in files` loop of `find_files`: test each filename
against the pattern, collect full paths of matches, and emit the verbose
per-file lines. -/
def scanFiles (path : List String) (verbose : Bool) :
    List (String × Nat) → List (List String) × List OutLine
  | [] => ([], [])
  | (name, _) :: rest =>
    let full := path ++ [name]
    let r := scanFiles path verbose rest
    if conflictSearch name.toList then
      (full :: r.1,
        (if verbose then [OutLine.foundConflict full] else []) ++ r.2)
    else
      (r.1, (if verbose then [OutLine.skippingFile full] else []) ++ r.2)

mutual

/-- The function `find_files(dir, verbose)`: walk the tree top-down (`os.walk`), match
every filename against `conflict_re`, and return the matched full paths
in visit order together with the console output (the `tqdm` tick per
directory and the verbose per-file lines). -/
def find_files (path : List String) (verbose : Bool) :
    FSTree → List (List String) × List OutLine
  | .node files subdirs =>
    let here := scanFiles path verbose files
    let below := find_files_dirs path verbose subdirs
    (here.1 ++ below.1, OutLine.progressDir path :: (here.2 ++ below.2))

/-- Walk each subdirectory in order (the recursive part of `os.walk`). -/
def find_files_dirs (path : List String) (verbose : Bool) :
    FSDirList → List (List String) × List OutLine
  | .dnil => ([], [])
  | .dcons name t rest =>
    let r1 := find_files (path ++ [name]) verbose t
    let r2 := find_files_dirs path verbose rest
    (r1.1 ++ r2.1, r1.2 ++ r2.2)

end

mutual

/-- All regular files in the tree, as `(directory path, name, size)`,
in walk order.  This is the reference enumeration the scanner is compared
against; the file's full path is `dirpath ++ [name]`. -/
def filesUnder (path : List String) : FSTree → List (List String × String × Nat)
  | .node files subdirs =>
    files.map (fun f => (path, f.1, f.2)) ++ filesUnderDirs path subdirs

/-- Files of each subdirectory in order. -/
def filesUnderDirs (path : List String) : FSDirList → List (List String × String × Nat)
  | .dnil => []
  | .dcons name t rest =>
    filesUnder (path ++ [name]) t ++ filesUnderDirs path rest

end

mutual

/-- Full paths of all directories strictly below the root. -/
def dirPaths (path : List String) : FSTree → List (List String)
  | .node _ subdirs => dirPathsDirs path subdirs

/-- Directory paths contributed by each subdirectory in order. -/
def dirPathsDirs (path : List String) : FSDirList → List (List String)
  | .dnil => []
  | .dcons name t rest =>
    (path ++ [name]) :: dirPaths (path ++ [name]) t ++ dirPathsDirs path rest

end

/-- The subdirectory names of a directory listing. -/
def dirNames : FSDirList → List String
  | .dnil => []
  | .dcons name _ rest => name :: dirNames rest

mutual

/-- Well-formedness of a real filesystem tree: inside each directory all
entry names (files and subdirectories together) are distinct. -/
def WF : FSTree → Bool
  | .node files subdirs =>
    (files.map Prod.fst ++ dirNames subdirs).Nodup && WFdirs subdirs

/-- Well-formedness of every subdirectory. -/
def WFdirs : FSDirList → Bool
  | .dnil => true
  | .dcons _ t rest => WF t && WFdirs rest

end

/-! ### The remover

`remove_files` calls `os.remove` on each path in order; every exception is
caught and reported, and the loop continues.  The filesystem at removal
time is an explicit list of the paths that currently exist; `os.remove`
succeeds exactly when the path exists, and otherwise raises (modelled by
`Except`). -/

/-- One removal report line: `Removed file: p` or `Error removing file: p`. -/
inductive RmReport : Type where
  | removed : List String → RmReport
  | errorRemoving : List String → RmReport
  deriving DecidableEq

/-- The path a report line is about. -/
def RmReport.path : RmReport → List String
  | .removed p => p
  | .errorRemoving p => p

/-- Is the report line a success? -/
def RmReport.isRemoved : RmReport → Bool
  | .removed _ => true
  | .errorRemoving _ => false

/-- Model of `os.remove(p)`: delete the file if it exists, else raise. -/
def os_remove (fs : List (List String)) (p : List String) :
    Except Unit (List (List String)) :=
  if p ∈ fs then Except.ok (fs.erase p) else Except.error ()

/-- The function `remove_files(files)`: attempt each path in order; catch the error of a
failed removal, report it, and continue.  Returns the final filesystem and
the report lines.  Totality of this function is the embedded form of "no
exception escapes `remove_files`". -/
def remove_files (fs : List (List String)) :
    List (List String) → List (List String) × List RmReport
  | [] => (fs, [])
  | p :: rest =>
    match os_remove fs p with
    | Except.ok fs2 =>
      let r := remove_files fs2 rest
      (r.1, RmReport.removed p :: r.2)
    | Except.error _ =>
      let r := remove_files fs rest
      (r.1, RmReport.errorRemoving p :: r.2)

/-! ### Size formatting

Python line 111:
`f"{total_size / (1024 ** 2):.2f} MB" if total_size > 1024 ** 2
 else f"{total_size / 1024:.2f} KB"`.
An integer divided by a power of two is exact in binary floating point
(for the sizes in range), and `:.2f` is correctly rounded with ties to
even, so the pipeline equals rounding the rational `num/den` to two
decimals with half-to-even ties. -/

/-- Round `num/den` half-to-even to 2 decimals and print with exactly two
fractional digits (`:.2f` applied to the exact value `num/den`). -/
def formatTwoDec (num den : Nat) : String :=
  let n100 := num * 100
  let q := n100 / den
  let r := n100 % den
  let rounded :=
    if 2 * r > den then q + 1
    else if 2 * r < den then q
    else if q % 2 = 0 then q else q + 1
  let whole := rounded / 100
  let frac := rounded % 100
  toString whole ++ "." ++ (if frac < 10 then "0" else "") ++ toString frac

/-- The size summary string of line 111: megabytes when strictly above
`1024 ** 2` bytes, else kilobytes. -/
def total_size_str (total : Nat) : String :=
  if total > 1024 ^ 2 then formatTwoDec total (1024 ^ 2) ++ " MB"
  else formatTwoDec total 1024 ++ " KB"

/-! ### The entry point

The `__main__` block, as a function of the outside world:
  * `target` — what the `--dir` argument denotes: `none` when the path
    does not exist, `some (Sum.inl ())` when it exists but is not a
    directory, `some (Sum.inr t)` when it is the directory tree `t`;
  * `stat` — the metadata view at summary time: the size `f.stat().st_size`
    returns for each candidate, or `none` when the file has vanished and
    `stat` raises (line 110 has no handler for that);
  * `user` — the line read by `input(...)`;
  * `rfs` — the set of paths existing when `remove_files` runs. -/

/-- The summary sum `sum(f.stat().st_size for f in conflict_list)`: left to right, the
first failing `stat` raises; otherwise the total size. -/
def statTotal (stat : List String → Option Nat) :
    List (List String) → Except (List String) Nat
  | [] => Except.ok 0
  | p :: rest =>
    match stat p with
    | none => Except.error p
    | some n => (statTotal stat rest).map (fun m => n + m)

/-- The observable outcome of one run of the script. -/
inductive RunResult : Type where
  /-- Message `Directory does not exist` printed, `exit(1)`; no scan ran. -/
  | badDir : RunResult
  /-- Zero conflict files: count printed, no prompt, normal end. -/
  | noConflicts : RunResult
  /-- An unhandled exception from `f.stat()` on line 110 ended the process
  before the prompt; the failing path is recorded. -/
  | crashed : List String → RunResult
  /-- The user declined: abort message printed, nothing deleted. -/
  | aborted : List (List String) → String → RunResult
  /-- The user confirmed: `remove_files` ran, with its final filesystem
  and report. -/
  | removed : List (List String) → String → List (List String) → List RmReport → RunResult

/-- The whole `__main__` block. -/
def main_model (target : Option (Sum Unit FSTree))
    (stat : List String → Option Nat) (user : String)
    (rfs : List (List String)) : RunResult :=
  match target with
  | none => RunResult.badDir
  | some (Sum.inl _) => RunResult.badDir
  | some (Sum.inr t) =>
    let conflicts := (find_files [] false t).1
    if conflicts.length = 0 then RunResult.noConflicts
    else
      match statTotal stat conflicts with
      | Except.error p => RunResult.crashed p
      | Except.ok total =>
        let sizeStr := total_size_str total
        if user = "y" then
          let r := remove_files rfs conflicts
          RunResult.removed conflicts sizeStr r.1 r.2
        else RunResult.aborted conflicts sizeStr

/-- The process exit status of an outcome: `exit(1)` for a bad directory,
status 1 for the uncaught exception on line 110 (Python exits 1 on an
unhandled exception), 0 otherwise. -/
def exit_code : RunResult → Nat
  | RunResult.badDir => 1
  | RunResult.crashed _ => 1
  | _ => 0

/-- Did the run terminate abnormally (an uncaught exception)? -/
def crashedRun : RunResult → Bool
  | RunResult.crashed _ => true
  | _ => false

/-- Did the scanner run during this outcome?  `badDir` exits before the
call to `find_files` on line 101. -/
def scanRan : RunResult → Bool
  | RunResult.badDir => false
  | _ => true

/-- The paths actually deleted during the run. -/
def deletedPaths : RunResult → List (List String)
  | RunResult.removed _ _ _ rep =>
    (rep.filter (fun r => r.isRemoved)).map RmReport.path
  | _ => []

/-! ### Spec-side statements of the conflict pattern

Two declarative readings of the conflict-name rule, to be compared with
the executable matcher `conflictSearch` taken from the source. -/

/-- The pattern exactly as claim C1 words it: the filename contains
`"# Edit conflict "`, then four digits, a dash, two digits, a dash, two
digits, then arbitrary text, then a trailing `" #"`.  No space is required
between the date and the arbitrary text. -/
def specConflictC1 (name : List Char) : Prop :=
  ∃ (pre mid post : List Char) (y1 y2 y3 y4 m1 m2 d1 d2 : Char),
    name = pre ++ conflictLit ++ [y1, y2, y3, y4, '-', m1, m2, '-', d1, d2]
      ++ mid ++ [' ', '#'] ++ post
    ∧ [y1, y2, y3, y4, m1, m2, d1, d2].all isReDigit = true

/-- The corrected declarative pattern: after the date the regex demands a
space, then arbitrary newline-free text, then `" #"`. -/
def specConflictAmended (name : List Char) : Prop :=
  ∃ (pre mid post : List Char) (y1 y2 y3 y4 m1 m2 d1 d2 : Char),
    name = pre ++ conflictLit ++ [y1, y2, y3, y4, '-', m1, m2, '-', d1, d2]
      ++ [' '] ++ mid ++ [' ', '#'] ++ post
    ∧ [y1, y2, y3, y4, m1, m2, d1, d2].all isReDigit = true
    ∧ mid.all isDotChar = true

/-! ### Characterizing the executable matcher -/

theorem dropLit_eq_some (lit : List Char) :
    ∀ s r : List Char, dropLit lit s = some r ↔ s = lit ++ r := by
  induction lit with
  | nil => intro s r; simp [dropLit]
  | cons c l ih =>
    intro s r
    cases s with
    | nil => simp [dropLit]
    | cons d s' =>
      by_cases h : c = d
      · subst h
        simp [dropLit, ih]
      · simp [dropLit, h]
        intro hd
        exact fun _ => h hd.symm

theorem dropDigits_eq_some (n : Nat) :
    ∀ s r : List Char, dropDigits n s = some r ↔
      ∃ d, s = d ++ r ∧ d.length = n ∧ d.all isReDigit = true := by
  induction n with
  | zero =>
    intro s r
    simp only [dropDigits, Option.some.injEq]
    constructor
    · intro h; exact ⟨[], by simp [h], rfl, rfl⟩
    · rintro ⟨d, hs, hd, -⟩
      rw [List.length_eq_zero] at hd
      subst hd
      simpa using hs
  | succ n ih =>
    intro s r
    cases s with
    | nil =>
      constructor
      · intro h; simp [dropDigits] at h
      · rintro ⟨d, hs, hlen, -⟩
        cases d with
        | nil => simp at hlen
        | cons a d' => simp at hs
    | cons c s' =>
      by_cases hc : isReDigit c = true
      · simp only [dropDigits, hc, if_pos, ih]
        constructor
        · rintro ⟨d, hs, hlen, hall⟩
          exact ⟨c :: d, by simp [hs], by simp [hlen], by simp [hall, hc]⟩
        · rintro ⟨d, hs, hlen, hall⟩
          cases d with
          | nil => simp at hlen
          | cons a d' =>
            have h1 : c = a ∧ s' = d' ++ r := by simpa using hs
            refine ⟨d', h1.2, by simpa using hlen, ?_⟩
            have h2 : isReDigit a = true ∧ d'.all isReDigit = true := by
              simpa [List.all_cons] using hall
            exact h2.2
      · constructor
        · intro h; simp [dropDigits, hc] at h
        · rintro ⟨d, hs, hlen, hall⟩
          exfalso
          cases d with
          | nil => simp at hlen
          | cons a d' =>
            have h1 : c = a ∧ s' = d' ++ r := by simpa using hs
            have h2 : isReDigit a = true ∧ d'.all isReDigit = true := by
              simpa [List.all_cons] using hall
            rw [← h1.1] at h2
            exact hc h2.1

theorem tailMatch_iff : ∀ s : List Char, tailMatch s = true ↔
    ∃ mid post : List Char,
      s = mid ++ [' ', '#'] ++ post ∧ mid.all isDotChar = true := by
  intro s
  induction s with
  | nil =>
    constructor
    · intro h; simp [tailMatch] at h
    · rintro ⟨mid, post, hs, -⟩
      have := congrArg List.length hs
      simp at this
      omega
  | cons c rest ih =>
    cases rest with
    | nil =>
      constructor
      · intro h; simp [tailMatch] at h
      · rintro ⟨mid, post, hs, -⟩
        have := congrArg List.length hs
        simp at this
        omega
    | cons d rest' =>
      simp only [tailMatch, Bool.or_eq_true, Bool.and_eq_true,
        decide_eq_true_eq, ih]
      constructor
      · rintro (⟨hc, hd⟩ | ⟨hdot, mid, post, hrest, hall⟩)
        · exact ⟨[], rest', by simp [hc, hd], rfl⟩
        · exact ⟨c :: mid, post, by simp [hrest], by simp [hall, hdot]⟩
      · rintro ⟨mid, post, hs, hall⟩
        cases mid with
        | nil =>
          left
          have : c = ' ' ∧ d :: rest' = '#' :: post := by simpa using hs
          have h2 : d = '#' := by simpa using congrArg (fun l => l.headI) this.2
          exact ⟨this.1, h2⟩
        | cons a mid' =>
          right
          have h1 : c = a ∧ d :: rest' = mid' ++ [' ', '#'] ++ post := by
            simpa using hs
          have h2 : isDotChar a = true ∧ mid'.all isDotChar = true := by
            simpa [List.all_cons] using hall
          exact ⟨h1.1 ▸ h2.1, mid', post, h1.2, h2.2⟩

theorem list_length_eq_four (l : List Char) :
    l.length = 4 ↔ ∃ a b c d, l = [a, b, c, d] := by
  constructor
  · intro h
    rcases l with _ | ⟨a, _ | ⟨b, _ | ⟨c, _ | ⟨d, _ | ⟨e, t⟩⟩⟩⟩⟩
    · simp at h
    · simp at h
    · simp at h
    · simp at h
    · exact ⟨a, b, c, d, rfl⟩
    · simp only [List.length_cons] at h; omega
  · rintro ⟨a, b, c, d, rfl⟩; rfl

theorem list_length_eq_two (l : List Char) :
    l.length = 2 ↔ ∃ a b, l = [a, b] := by
  constructor
  · intro h
    rcases l with _ | ⟨a, _ | ⟨b, _ | ⟨c, t⟩⟩⟩
    · simp at h
    · simp at h
    · exact ⟨a, b, rfl⟩
    · simp only [List.length_cons] at h; omega
  · rintro ⟨a, b, rfl⟩; rfl

theorem matchConflictAt_iff (s : List Char) : matchConflictAt s = true ↔
    ∃ (y1 y2 y3 y4 m1 m2 d1 d2 : Char) (mid post : List Char),
      s = conflictLit ++ [y1, y2, y3, y4, '-', m1, m2, '-', d1, d2]
        ++ [' '] ++ mid ++ [' ', '#'] ++ post
      ∧ [y1, y2, y3, y4, m1, m2, d1, d2].all isReDigit = true
      ∧ mid.all isDotChar = true := by
  constructor
  · intro h
    unfold matchConflictAt at h
    rcases h1 : dropLit conflictLit s with _ | s1 <;>
      rw [h1] at h <;> simp only [Option.bind_eq_bind, Option.some_bind] at h
    · simp at h
    rcases h2 : dropDigits 4 s1 with _ | s2 <;>
      rw [h2] at h <;> simp only [Option.some_bind, Option.none_bind] at h
    · simp at h
    rcases h3 : dropLit ['-'] s2 with _ | s3 <;>
      rw [h3] at h <;> simp only [Option.some_bind, Option.none_bind] at h
    · simp at h
    rcases h4 : dropDigits 2 s3 with _ | s4 <;>
      rw [h4] at h <;> simp only [Option.some_bind, Option.none_bind] at h
    · simp at h
    rcases h5 : dropLit ['-'] s4 with _ | s5 <;>
      rw [h5] at h <;> simp only [Option.some_bind, Option.none_bind] at h
    · simp at h
    rcases h6 : dropDigits 2 s5 with _ | s6 <;>
      rw [h6] at h <;> simp only [Option.some_bind, Option.none_bind] at h
    · simp at h
    rcases h7 : dropLit [' '] s6 with _ | s7 <;> rw [h7] at h
    · simp at h
    simp only [Option.pure_def, Option.some_bind, Option.elim] at h
    rw [dropLit_eq_some] at h1 h3 h5 h7
    rw [dropDigits_eq_some] at h2 h4 h6
    obtain ⟨dy, hdy, hdylen, hdyall⟩ := h2
    obtain ⟨dm, hdm, hdmlen, hdmall⟩ := h4
    obtain ⟨dd, hdd, hddlen, hddall⟩ := h6
    obtain ⟨y1, y2, y3, y4, rfl⟩ := (list_length_eq_four dy).mp hdylen
    obtain ⟨m1, m2, rfl⟩ := (list_length_eq_two dm).mp hdmlen
    obtain ⟨d1, d2, rfl⟩ := (list_length_eq_two dd).mp hddlen
    obtain ⟨mid, post, hrest, hmid⟩ := (tailMatch_iff s7).mp h
    refine ⟨y1, y2, y3, y4, m1, m2, d1, d2, mid, post, ?_, ?_, hmid⟩
    · subst h1 hdy h3 hdm h5 hdd h7 hrest
      simp
    · simp only [List.all_cons, List.all_nil, Bool.and_eq_true] at hdyall hdmall hddall ⊢
      exact ⟨hdyall.1, hdyall.2.1, hdyall.2.2.1, hdyall.2.2.2.1,
        hdmall.1, hdmall.2.1, hddall.1, hddall.2.1, trivial⟩
  · rintro ⟨y1, y2, y3, y4, m1, m2, d1, d2, mid, post, rfl, hdig, hmid⟩
    have hd := by simpa only [List.all_cons, List.all_nil, Bool.and_eq_true] using hdig
    obtain ⟨hy1, hy2, hy3, hy4, hm1, hm2, hd1, hd2, -⟩ := hd
    unfold matchConflictAt
    rw [show dropLit conflictLit (conflictLit ++ [y1, y2, y3, y4, '-', m1, m2, '-', d1, d2]
          ++ [' '] ++ mid ++ [' ', '#'] ++ post) =
        some ([y1, y2, y3, y4, '-', m1, m2, '-', d1, d2] ++ [' '] ++ mid ++ [' ', '#'] ++ post)
      from (dropLit_eq_some _ _ _).mpr (by simp)]
    simp only [Option.bind_eq_bind, Option.some_bind]
    rw [show dropDigits 4 ([y1, y2, y3, y4, '-', m1, m2, '-', d1, d2]
          ++ [' '] ++ mid ++ [' ', '#'] ++ post) =
        some (['-', m1, m2, '-', d1, d2] ++ [' '] ++ mid ++ [' ', '#'] ++ post) from
      (dropDigits_eq_some 4 _ _).mpr
        ⟨[y1, y2, y3, y4], by simp, rfl, by simp [hy1, hy2, hy3, hy4]⟩]
    simp only [Option.some_bind]
    rw [show dropLit ['-'] (['-', m1, m2, '-', d1, d2] ++ [' '] ++ mid ++ [' ', '#'] ++ post) =
        some ([m1, m2, '-', d1, d2] ++ [' '] ++ mid ++ [' ', '#'] ++ post) from
      (dropLit_eq_some _ _ _).mpr (by simp)]
    simp only [Option.some_bind]
    rw [show dropDigits 2 ([m1, m2, '-', d1, d2] ++ [' '] ++ mid ++ [' ', '#'] ++ post) =
        some (['-', d1, d2] ++ [' '] ++ mid ++ [' ', '#'] ++ post) from
      (dropDigits_eq_some 2 _ _).mpr ⟨[m1, m2], by simp, rfl, by simp [hm1, hm2]⟩]
    simp only [Option.some_bind]
    rw [show dropLit ['-'] (['-', d1, d2] ++ [' '] ++ mid ++ [' ', '#'] ++ post) =
        some ([d1, d2] ++ [' '] ++ mid ++ [' ', '#'] ++ post) from
      (dropLit_eq_some _ _ _).mpr (by simp)]
    simp only [Option.some_bind]
    rw [show dropDigits 2 ([d1, d2] ++ [' '] ++ mid ++ [' ', '#'] ++ post) =
        some ([' '] ++ mid ++ [' ', '#'] ++ post) from
      (dropDigits_eq_some 2 _ _).mpr ⟨[d1, d2], by simp, rfl, by simp [hd1, hd2]⟩]
    simp only [Option.some_bind]
    rw [show dropLit [' '] ([' '] ++ mid ++ [' ', '#'] ++ post) =
        some (mid ++ [' ', '#'] ++ post) from
      (dropLit_eq_some _ _ _).mpr (by simp)]
    simp only [Option.pure_def, Option.some_bind, Option.elim]
    exact (tailMatch_iff _).mpr ⟨mid, post, by simp, hmid⟩

theorem conflictSearch_iff (s : List Char) : conflictSearch s = true ↔
    ∃ pre suf, s = pre ++ suf ∧ matchConflictAt suf = true := by
  induction s with
  | nil =>
    constructor
    · intro h; simp [conflictSearch] at h
    · rintro ⟨pre, suf, hs, hm⟩
      have hp : pre = [] ∧ suf = [] := by
        constructor <;> [skip; skip] <;>
          · cases hpre : pre <;> cases hsuf : suf <;> simp_all
      rw [hp.2] at hm
      exact absurd hm (by decide)
  | cons c rest ih =>
    simp only [conflictSearch, Bool.or_eq_true, ih]
    constructor
    · rintro (h | ⟨pre, suf, hs, hm⟩)
      · exact ⟨[], c :: rest, rfl, h⟩
      · exact ⟨c :: pre, suf, by simp [hs], hm⟩
    · rintro ⟨pre, suf, hs, hm⟩
      cases pre with
      | nil =>
        left
        have : suf = c :: rest := by simpa using hs.symm
        rwa [this] at hm
      | cons a pre' =>
        right
        have h1 : c = a ∧ rest = pre' ++ suf := by simpa using hs
        exact ⟨pre', suf, h1.2, hm⟩

/-- The central characterization: the matcher compiled from the source
regex accepts a filename exactly when the filename contains
`"# Edit conflict "`, a digit-and-dash shaped date, a space, a run of
non-newline characters, and `" #"`. -/
theorem conflictSearch_iff_spec (s : List Char) :
    conflictSearch s = true ↔ specConflictAmended s := by
  rw [conflictSearch_iff]
  constructor
  · rintro ⟨pre, suf, rfl, hm⟩
    obtain ⟨y1, y2, y3, y4, m1, m2, d1, d2, mid, post, rfl, hdig, hmid⟩ :=
      (matchConflictAt_iff suf).mp hm
    exact ⟨pre, mid, post, y1, y2, y3, y4, m1, m2, d1, d2, by simp, hdig, hmid⟩
  · rintro ⟨pre, mid, post, y1, y2, y3, y4, m1, m2, d1, d2, rfl, hdig, hmid⟩
    refine ⟨pre, conflictLit ++ [y1, y2, y3, y4, '-', m1, m2, '-', d1, d2]
      ++ [' '] ++ mid ++ [' ', '#'] ++ post, by simp, ?_⟩
    exact (matchConflictAt_iff _).mpr
      ⟨y1, y2, y3, y4, m1, m2, d1, d2, mid, post, by simp, hdig, hmid⟩

/-! ### The scanner as a filter over the file enumeration -/

theorem scanFiles_fst (path : List String) (v : Bool) :
    ∀ files : List (String × Nat), (scanFiles path v files).1 =
      ((files.map fun f => (path, f.1, f.2)).filter
        fun e => conflictSearch e.2.1.toList).map fun e => e.1 ++ [e.2.1] := by
  intro files
  induction files with
  | nil => rfl
  | cons f rest ih =>
    obtain ⟨name, sz⟩ := f
    cases hf : conflictSearch name.data <;>
      simp [scanFiles, String.toList, hf, ih, List.filter_cons]

mutual

theorem find_files_fst (path : List String) (v : Bool) :
    ∀ t : FSTree, (find_files path v t).1 =
      ((filesUnder path t).filter fun e => conflictSearch e.2.1.toList).map
        fun e => e.1 ++ [e.2.1]
  | .node files subdirs => by
    simp only [find_files, filesUnder, List.filter_append, List.map_append]
    rw [scanFiles_fst, find_files_dirs_fst path v subdirs]

theorem find_files_dirs_fst (path : List String) (v : Bool) :
    ∀ l : FSDirList, (find_files_dirs path v l).1 =
      ((filesUnderDirs path l).filter fun e => conflictSearch e.2.1.toList).map
        fun e => e.1 ++ [e.2.1]
  | .dnil => rfl
  | .dcons name t rest => by
    simp only [find_files_dirs, filesUnderDirs, List.filter_append, List.map_append]
    rw [find_files_fst (path ++ [name]) v t, find_files_dirs_fst path v rest]

end

theorem mem_find_files (path : List String) (v : Bool) (t : FSTree) (q : List String) :
    q ∈ (find_files path v t).1 ↔
      ∃ dp name sz, (dp, name, sz) ∈ filesUnder path t
        ∧ conflictSearch name.toList = true ∧ q = dp ++ [name] := by
  rw [find_files_fst]
  simp only [List.mem_map, List.mem_filter]
  constructor
  · rintro ⟨⟨dp, name, sz⟩, ⟨hmem, hc⟩, rfl⟩
    exact ⟨dp, name, sz, hmem, hc, rfl⟩
  · rintro ⟨dp, name, sz, hmem, hc, rfl⟩
    exact ⟨(dp, name, sz), ⟨hmem, hc⟩, rfl⟩

/-! ### Shapes of the enumerated paths -/

/-- The full path of a file entry. -/
def fullPath (e : List String × String × Nat) : List String := e.1 ++ [e.2.1]

mutual

theorem filesUnder_shape (path : List String) :
    ∀ t : FSTree, ∀ q ∈ (filesUnder path t).map fullPath,
      ∃ ext, q = path ++ ext ∧ ext ≠ []
  | .node files subdirs => by
    intro q hq
    simp only [filesUnder, List.map_append, List.mem_append] at hq
    rcases hq with hq | hq
    · simp only [List.map_map, List.mem_map] at hq
      obtain ⟨f, -, rfl⟩ := hq
      exact ⟨[f.1], rfl, by simp⟩
    · obtain ⟨d, ext, -, hq, -⟩ := filesUnderDirs_shape path subdirs q hq
      exact ⟨d :: ext, hq, by simp⟩

theorem filesUnderDirs_shape (path : List String) :
    ∀ l : FSDirList, ∀ q ∈ (filesUnderDirs path l).map fullPath,
      ∃ d ext, d ∈ dirNames l ∧ q = path ++ d :: ext ∧ ext ≠ []
  | .dnil => by intro q hq; simp [filesUnderDirs] at hq
  | .dcons name t rest => by
    intro q hq
    simp only [filesUnderDirs, List.map_append, List.mem_append] at hq
    rcases hq with hq | hq
    · obtain ⟨ext, hq, hne⟩ := filesUnder_shape (path ++ [name]) t q hq
      refine ⟨name, ext, by simp [dirNames], by simpa using hq, hne⟩
    · obtain ⟨d, ext, hd, hq, hne⟩ := filesUnderDirs_shape path rest q hq
      exact ⟨d, ext, by simp [dirNames, hd], hq, hne⟩

end

mutual

theorem dirPaths_shape (path : List String) :
    ∀ t : FSTree, ∀ q ∈ dirPaths path t, ∃ ext, q = path ++ ext ∧ ext ≠ []
  | .node files subdirs => by
    intro q hq
    simp only [dirPaths] at hq
    obtain ⟨d, ext, -, hq⟩ := dirPathsDirs_shape path subdirs q hq
    exact ⟨d :: ext, hq, by simp⟩

theorem dirPathsDirs_shape (path : List String) :
    ∀ l : FSDirList, ∀ q ∈ dirPathsDirs path l,
      ∃ d ext, d ∈ dirNames l ∧ q = path ++ d :: ext
  | .dnil => by intro q hq; simp [dirPathsDirs] at hq
  | .dcons name t rest => by
    intro q hq
    simp only [dirPathsDirs, List.mem_cons, List.mem_append] at hq
    rcases hq with (rfl | hq) | hq
    · exact ⟨name, [], by simp [dirNames], by simp⟩
    · obtain ⟨ext, hq, -⟩ := dirPaths_shape (path ++ [name]) t q hq
      exact ⟨name, ext, by simp [dirNames], by simpa using hq⟩
    · obtain ⟨d, ext, hd, hq⟩ := dirPathsDirs_shape path rest q hq
      exact ⟨d, ext, by simp [dirNames, hd], hq⟩

end

/-! ### Distinctness of full paths in a well-formed tree -/

theorem snocPath_injective (path : List String) :
    Function.Injective fun n : String => path ++ [n] := by
  intro a b h
  simpa using List.append_cancel_left h

mutual

theorem filesUnder_nodup (path : List String) :
    ∀ t : FSTree, WF t = true → ((filesUnder path t).map fullPath).Nodup
  | .node files subdirs => by
    intro hwf
    have hwf' : (files.map Prod.fst ++ dirNames subdirs).Nodup ∧ WFdirs subdirs = true := by
      simpa [WF] using hwf
    simp only [filesUnder, List.map_append]
    refine List.Nodup.append ?_
      (filesUnderDirs_nodup path subdirs hwf'.2 hwf'.1.of_append_right) ?_
    · rw [List.map_map]
      have h2 : (files.map (fullPath ∘ fun f => (path, f.1, f.2))) =
          (files.map Prod.fst).map fun n => path ++ [n] := by
        rw [List.map_map]; rfl
      rw [h2]
      exact (hwf'.1.of_append_left).map (snocPath_injective path)
    · intro q hqA hqB
      simp only [List.map_map, List.mem_map] at hqA
      obtain ⟨f, -, rfl⟩ := hqA
      obtain ⟨d, ext, -, hq2, hne⟩ := filesUnderDirs_shape path subdirs _ hqB
      have hl := congrArg List.length hq2
      simp only [Function.comp, fullPath, List.length_append, List.length_cons,
        List.length_nil] at hl
      have hep : 0 < ext.length := List.length_pos.mpr hne
      omega

theorem filesUnderDirs_nodup (path : List String) :
    ∀ l : FSDirList, WFdirs l = true → (dirNames l).Nodup →
      ((filesUnderDirs path l).map fullPath).Nodup
  | .dnil => by intro _ _; simp [filesUnderDirs]
  | .dcons name t rest => by
    intro hwf hnames
    have hwf' : WF t = true ∧ WFdirs rest = true := by simpa [WFdirs] using hwf
    have hnames' : name ∉ dirNames rest ∧ (dirNames rest).Nodup := by
      simpa [dirNames] using hnames
    simp only [filesUnderDirs, List.map_append]
    refine List.Nodup.append (filesUnder_nodup (path ++ [name]) t hwf'.1)
      (filesUnderDirs_nodup path rest hwf'.2 hnames'.2) ?_
    intro q hqA hqB
    obtain ⟨ext, hq1, -⟩ := filesUnder_shape (path ++ [name]) t q hqA
    obtain ⟨d, ext2, hd, hq2, -⟩ := filesUnderDirs_shape path rest q hqB
    have hq1' : q = path ++ name :: ext := by simpa using hq1
    have e := List.append_cancel_left (hq1'.symm.trans hq2)
    have hnd : name = d ∧ ext = ext2 := by simpa using e
    exact hnames'.1 (hnd.1 ▸ hd)

end

/-- The scanner's result list has no duplicates on a well-formed tree. -/
theorem find_files_nodup (path : List String) (v : Bool) (t : FSTree)
    (h : WF t = true) : ((find_files path v t).1).Nodup := by
  rw [find_files_fst]
  exact List.Nodup.sublist
    (List.Sublist.map fullPath (List.filter_sublist _)) (filesUnder_nodup path t h)

/-! ### The scanner never returns a directory path -/

mutual

theorem filesUnder_not_dir (path : List String) :
    ∀ t : FSTree, WF t = true →
      ∀ q ∈ (filesUnder path t).map fullPath, q ∉ dirPaths path t
  | .node files subdirs => by
    intro hwf q hq hdir
    have hwf' : (files.map Prod.fst ++ dirNames subdirs).Nodup ∧ WFdirs subdirs = true := by
      simpa [WF] using hwf
    simp only [dirPaths] at hdir
    simp only [filesUnder, List.map_append, List.mem_append] at hq
    rcases hq with hq | hq
    · simp only [List.map_map, List.mem_map] at hq
      obtain ⟨f, hf, rfl⟩ := hq
      obtain ⟨d, ext, hd, hq2⟩ := dirPathsDirs_shape path subdirs _ hdir
      have e := List.append_cancel_left hq2
      have hfd : f.1 = d := by
        have : f.1 = d ∧ [] = ext := by simpa [fullPath] using e
        exact this.1
      exact (List.disjoint_of_nodup_append hwf'.1)
        (List.mem_map_of_mem Prod.fst hf) (hfd ▸ hd)
    · exact filesUnderDirs_not_dirsDirs path subdirs hwf'.2
        hwf'.1.of_append_right q hq hdir

theorem filesUnderDirs_not_dirsDirs (path : List String) :
    ∀ l : FSDirList, WFdirs l = true → (dirNames l).Nodup →
      ∀ q ∈ (filesUnderDirs path l).map fullPath, q ∉ dirPathsDirs path l
  | .dnil => by intro _ _ q hq; simp [filesUnderDirs] at hq
  | .dcons name t rest => by
    intro hwf hnames q hq hdir
    have hwf' : WF t = true ∧ WFdirs rest = true := by simpa [WFdirs] using hwf
    have hnames' : name ∉ dirNames rest ∧ (dirNames rest).Nodup := by
      simpa [dirNames] using hnames
    simp only [filesUnderDirs, List.map_append, List.mem_append] at hq
    simp only [dirPathsDirs, List.mem_append, List.mem_cons] at hdir
    rcases hq with hq | hq
    · obtain ⟨ext, hq1, hne⟩ := filesUnder_shape (path ++ [name]) t q hq
      rcases hdir with (rfl | hdir) | hdir
      · have hl := congrArg List.length hq1
        simp only [List.length_append, List.length_cons, List.length_nil] at hl
        have hep : 0 < ext.length := List.length_pos.mpr hne
        omega
      · exact filesUnder_not_dir (path ++ [name]) t hwf'.1 q hq hdir
      · obtain ⟨d, ext2, hd, hq2⟩ := dirPathsDirs_shape path rest q hdir
        have hq1' : q = path ++ name :: ext := by simpa using hq1
        have e := List.append_cancel_left (hq1'.symm.trans hq2)
        have hnd : name = d ∧ ext = ext2 := by simpa using e
        exact hnames'.1 (hnd.1 ▸ hd)
    · obtain ⟨d, ext, hd, hq1, hne⟩ := filesUnderDirs_shape path rest q hq
      rcases hdir with (rfl | hdir) | hdir
      · have e := List.append_cancel_left hq1.symm
        have h2 : d = name ∧ ext = [] := by simpa using e
        exact hne h2.2
      · obtain ⟨ext3, hq3, -⟩ := dirPaths_shape (path ++ [name]) t q hdir
        have hq3' : q = path ++ name :: ext3 := by simpa using hq3
        have e := List.append_cancel_left (hq3'.symm.trans hq1)
        have hnd : name = d ∧ ext3 = ext := by simpa using e
        exact hnames'.1 (hnd.1 ▸ hd)
      · exact filesUnderDirs_not_dirsDirs path rest hwf'.2 hnames'.2 q hq hdir

end

/-- On a well-formed tree, nothing the scanner returns is the root or a
directory path. -/
theorem find_files_no_dir (path : List String) (v : Bool) (t : FSTree)
    (h : WF t = true) :
    ∀ q ∈ (find_files path v t).1, q ≠ path ∧ q ∉ dirPaths path t := by
  intro q hq
  have hq' : q ∈ (filesUnder path t).map fullPath := by
    rw [find_files_fst] at hq
    exact (List.Sublist.map fullPath (List.filter_sublist _)).subset hq
  constructor
  · obtain ⟨ext, rfl, hne⟩ := filesUnder_shape path t q hq'
    intro habs
    have hl := congrArg List.length habs
    simp only [List.length_append] at hl
    have hep : 0 < ext.length := List.length_pos.mpr hne
    omega
  · exact filesUnder_not_dir path t h q hq'

/-! ### Auxiliary facts about the entry point -/

theorem statTotal_error_of_missing (stat : List String → Option Nat) :
    ∀ l : List (List String), (∃ p ∈ l, stat p = none) →
      ∃ q, statTotal stat l = Except.error q := by
  intro l
  induction l with
  | nil => rintro ⟨p, hp, -⟩; simp at hp
  | cons a l ih =>
    rintro ⟨p, hp, hnone⟩
    cases hs : stat a with
    | none => exact ⟨a, by simp [statTotal, hs]⟩
    | some n =>
      rcases List.mem_cons.mp hp with rfl | hp'
      · rw [hs] at hnone; simp at hnone
      · obtain ⟨q, hq⟩ := ih ⟨p, hp', hnone⟩
        exact ⟨q, by simp [statTotal, hs, hq, Except.map]⟩

/-- Did the run reach `remove_files`? -/
def proceededRemoval : RunResult → Bool
  | RunResult.removed _ _ _ _ => true
  | _ => false

/-! ### The claims -/

/-- C1 (counterexample): the claim's pattern — date immediately followed by
arbitrary text and a trailing `" #"`, with no space required after the
date — holds of the filename `"a# Edit conflict 2024-01-15x #"`, yet the
scanner excludes a file of that name: the compiled regex also demands a
space between the date and the text. -/
theorem conflict_pattern_no_space_counterexample :
    specConflictC1 "a# Edit conflict 2024-01-15x #".toList
    ∧ (find_files [] false
        (FSTree.node [("a# Edit conflict 2024-01-15x #", 1)] FSDirList.dnil)).1 = [] := by
  constructor
  · exact ⟨['a'], ['x'], [], '2', '0', '2', '4', '0', '1', '1', '5',
      by decide, by decide⟩
  · decide

/-- C1 (amended): the scanner includes exactly the files whose name
contains `"# Edit conflict "`, a digit-and-dash date, a space, arbitrary
newline-free text, and a trailing `" #"`; every other file is excluded.
Matching is substring search on the filename only. -/
theorem find_files_matches_spec_pattern (root : List String) (v : Bool)
    (t : FSTree) (q : List String) :
    q ∈ (find_files root v t).1 ↔
      ∃ dp name sz, (dp, name, sz) ∈ filesUnder root t
        ∧ specConflictAmended name.toList ∧ q = dp ++ [name] := by
  rw [mem_find_files]
  constructor
  · rintro ⟨dp, name, sz, hmem, hc, rfl⟩
    exact ⟨dp, name, sz, hmem, (conflictSearch_iff_spec _).mp hc, rfl⟩
  · rintro ⟨dp, name, sz, hmem, hc, rfl⟩
    exact ⟨dp, name, sz, hmem, (conflictSearch_iff_spec _).mpr hc, rfl⟩

/-- C2: with a nonzero candidate list and a successful size summary,
removal runs exactly when the prompt answer is the single character `y`;
any other answer produces the abort outcome and deletes nothing. -/
theorem confirmation_requires_exact_y (t : FSTree)
    (stat : List String → Option Nat) (user : String)
    (rfs : List (List String)) (total : Nat)
    (hne : (find_files [] false t).1 ≠ [])
    (hok : statTotal stat (find_files [] false t).1 = Except.ok total) :
    (proceededRemoval (main_model (some (Sum.inr t)) stat user rfs) = true
        ↔ user = "y")
    ∧ (user ≠ "y" →
        main_model (some (Sum.inr t)) stat user rfs =
          RunResult.aborted (find_files [] false t).1 (total_size_str total)
        ∧ deletedPaths (main_model (some (Sum.inr t)) stat user rfs) = []) := by
  have hlen : ¬((find_files [] false t).1.length = 0) := by
    simpa [List.length_eq_zero] using hne
  by_cases hu : user = "y" <;>
    simp [main_model, hlen, hok, hu, proceededRemoval, deletedPaths]

/-- C2 (witness): answering `"Y"` (capital) at a one-candidate tree
aborts: exact-match confirmation is case-sensitive. -/
theorem confirmation_requires_exact_y_witness :
    main_model (some (Sum.inr (FSTree.node
        [("a # Edit conflict 2024-01-15 x #", 5)] FSDirList.dnil)))
      (fun _ => some 5) "Y" [] =
    RunResult.aborted [["a # Edit conflict 2024-01-15 x #"]] (total_size_str 5) :=
  ((confirmation_requires_exact_y
    (FSTree.node [("a # Edit conflict 2024-01-15 x #", 5)] FSDirList.dnil)
    (fun _ => some 5) "Y" [] 5 (by decide) rfl).2 (by decide)).1

/-- C3: the remover attempts every path of its input, in input order, and
produces exactly one report line per path — a failed deletion is reported
for that path alone and never stops the batch.  `remove_files` is a total
function into reports: the embedded form of "no exception escapes". -/
theorem remove_files_attempts_every_path (fs : List (List String)) :
    ∀ ps : List (List String), ((remove_files fs ps).2).map RmReport.path = ps := by
  intro ps
  induction ps generalizing fs with
  | nil => rfl
  | cons p rest ih =>
    cases h : os_remove fs p with
    | ok fs2 => simp [remove_files, h, RmReport.path, ih]
    | error e => simp [remove_files, h, RmReport.path, ih]

/-- C4 (counterexample): a total of exactly `1024 ^ 2` bytes is formatted
as kilobytes (`"1024.00 KB"`), not megabytes — the source tests
`total_size > 1024 ** 2` strictly. -/
theorem size_boundary_counterexample :
    total_size_str (1024 ^ 2) = "1024.00 KB" := by decide

/-- C4 (amended): the combined size is formatted as kilobytes whenever the
total is at most `1024 ^ 2` bytes and as megabytes when strictly greater;
a total of 1126400 bytes is reported as `"1.07 MB"`. -/
theorem size_formatting_branches (tot : Nat) :
    (tot ≤ 1024 ^ 2 → ∃ s, total_size_str tot = s ++ " KB")
    ∧ (1024 ^ 2 < tot → ∃ s, total_size_str tot = s ++ " MB")
    ∧ total_size_str 1126400 = "1.07 MB" := by
  refine ⟨?_, ?_, by decide⟩
  · intro h
    refine ⟨formatTwoDec tot 1024, ?_⟩
    rw [total_size_str, if_neg (Nat.not_lt.mpr h)]
  · intro h
    refine ⟨formatTwoDec tot (1024 ^ 2), ?_⟩
    rw [total_size_str, if_pos h]

/-- C4 (witness): both branches of `size_formatting_branches` at concrete
totals. -/
theorem size_formatting_branches_witness :
    (∃ s, total_size_str 500 = s ++ " KB")
    ∧ (∃ s, total_size_str 2000000 = s ++ " MB") :=
  ⟨(size_formatting_branches 500).1 (by decide),
   (size_formatting_branches 2000000).2.1 (by decide)⟩

/-- C5: when the target does not exist, or exists but is not a directory,
the run ends as `badDir`: exit status 1, no scan, no deletion. -/
theorem bad_directory_exits_one (target : Option (Sum Unit FSTree))
    (stat : List String → Option Nat) (user : String)
    (rfs : List (List String))
    (h : target = none ∨ target = some (Sum.inl ())) :
    main_model target stat user rfs = RunResult.badDir
    ∧ exit_code (main_model target stat user rfs) = 1
    ∧ scanRan (main_model target stat user rfs) = false
    ∧ deletedPaths (main_model target stat user rfs) = [] := by
  rcases h with rfl | rfl <;>
    exact ⟨rfl, rfl, rfl, rfl⟩

/-- C5 (witness): a missing directory at concrete arguments. -/
theorem bad_directory_exits_one_witness :
    main_model none (fun _ => some 0) "y" [] = RunResult.badDir
    ∧ exit_code (main_model none (fun _ => some 0) "y" []) = 1
    ∧ scanRan (main_model none (fun _ => some 0) "y" []) = false
    ∧ deletedPaths (main_model none (fun _ => some 0) "y" []) = [] :=
  bad_directory_exits_one none (fun _ => some 0) "y" [] (Or.inl rfl)

/-- C6: on a well-formed tree the scanner's result is exactly the set of
matching files at any depth — membership is equivalent to being the full
path of a file whose name the pattern matches — with no duplicates, and
no element is the root or any directory path. -/
theorem find_files_exact_no_dups_no_dirs (root : List String) (v : Bool)
    (t : FSTree) (h : WF t = true) :
    (∀ q, q ∈ (find_files root v t).1 ↔
      ∃ dp name sz, (dp, name, sz) ∈ filesUnder root t
        ∧ conflictSearch name.toList = true ∧ q = dp ++ [name])
    ∧ ((find_files root v t).1).Nodup
    ∧ ∀ q ∈ (find_files root v t).1, q ≠ root ∧ q ∉ dirPaths root t :=
  ⟨fun q => mem_find_files root v t q, find_files_nodup root v t h,
   find_files_no_dir root v t h⟩

/-- C6 (witness): the exactness theorem applied to a concrete nested
well-formed tree. -/
theorem find_files_exact_no_dups_no_dirs_witness :
    ((find_files [] false
      (FSTree.node [("a # Edit conflict 2024-01-15 v2 #", 9), ("plain.txt", 4)]
        (FSDirList.dcons "sub"
          (FSTree.node [("b # Edit conflict 2024-01-15 v2 #", 2)] FSDirList.dnil)
          FSDirList.dnil))).1).Nodup :=
  (find_files_exact_no_dups_no_dirs [] false
    (FSTree.node [("a # Edit conflict 2024-01-15 v2 #", 9), ("plain.txt", 4)]
      (FSDirList.dcons "sub"
        (FSTree.node [("b # Edit conflict 2024-01-15 v2 #", 2)] FSDirList.dnil)
        FSDirList.dnil)) (by decide)).2.1

/-- C7: the verbose flag never changes the scanner's result list — the
paths returned are identical for any two verbosity settings, and the
per-file and progress output is cosmetic. -/
theorem verbose_noninterference (root : List String) (t : FSTree)
    (v1 v2 : Bool) : (find_files root v1 t).1 = (find_files root v2 t).1 := by
  rw [find_files_fst, find_files_fst]

/-- C8: date validation is purely syntactic — any eight digits in the
digit-and-dash shape are accepted, and in particular a file named with
`9999-99-99`, which is no real calendar date, is matched and returned by
the scanner. -/
theorem date_check_is_syntactic :
    (∀ y1 y2 y3 y4 m1 m2 d1 d2 : Char,
      [y1, y2, y3, y4, m1, m2, d1, d2].all isReDigit = true →
      conflictSearch (conflictLit ++ [y1, y2, y3, y4, '-', m1, m2, '-', d1, d2]
        ++ [' ', 'x', ' ', '#']) = true)
    ∧ (find_files [] false
        (FSTree.node [("r # Edit conflict 9999-99-99 x #.txt", 1)]
          FSDirList.dnil)).1 = [["r # Edit conflict 9999-99-99 x #.txt"]] := by
  constructor
  · intro y1 y2 y3 y4 m1 m2 d1 d2 hd
    exact (conflictSearch_iff_spec _).mpr
      ⟨[], ['x'], [], y1, y2, y3, y4, m1, m2, d1, d2, by simp, hd, by decide⟩
  · decide

/-- C8 (witness): the syntactic date rule at the concrete digits
`9999-99-99`. -/
theorem date_check_is_syntactic_witness :
    conflictSearch (conflictLit ++ ['9', '9', '9', '9', '-', '9', '9', '-', '9', '9']
      ++ [' ', 'x', ' ', '#']) = true :=
  date_check_is_syntactic.1 '9' '9' '9' '9' '9' '9' '9' '9' (by decide)

/-- C9: the regex requires a space after the date and a separate space
before the trailing `#`: with a single space between date and `#` the
name is not matched and the scanner excludes the file, while with two
spaces it is matched and the file is returned. -/
theorem single_space_before_hash_not_matched :
    conflictSearch "doc # Edit conflict 2024-01-15 #.txt".toList = false
    ∧ conflictSearch "doc # Edit conflict 2024-01-15  #.txt".toList = true
    ∧ (find_files [] false
        (FSTree.node [("doc # Edit conflict 2024-01-15 #.txt", 1)]
          FSDirList.dnil)).1 = []
    ∧ (find_files [] false
        (FSTree.node [("doc # Edit conflict 2024-01-15  #.txt", 1)]
          FSDirList.dnil)).1 = [["doc # Edit conflict 2024-01-15  #.txt"]] := by
  refine ⟨by decide, by decide, by decide, by decide⟩

/-- C10: if any candidate file's `stat` fails at summary time (line 110
has no handler), the run crashes before the confirmation prompt: the
outcome is `crashed`, nothing is deleted, and the outcome does not depend
on the prompt answer or on the filesystem seen at removal time. -/
theorem stat_failure_crashes_before_prompt (t : FSTree)
    (stat : List String → Option Nat) (user : String)
    (rfs : List (List String))
    (h : ∃ p ∈ (find_files [] false t).1, stat p = none) :
    (∃ q, main_model (some (Sum.inr t)) stat user rfs = RunResult.crashed q)
    ∧ deletedPaths (main_model (some (Sum.inr t)) stat user rfs) = []
    ∧ ∀ (user2 : String) (rfs2 : List (List String)),
        main_model (some (Sum.inr t)) stat user rfs =
          main_model (some (Sum.inr t)) stat user2 rfs2 := by
  have hne : (find_files [] false t).1 ≠ [] := by
    rcases h with ⟨p, hp, -⟩
    intro habs; rw [habs] at hp; simp at hp
  have hlen : ¬((find_files [] false t).1.length = 0) := by
    simpa [List.length_eq_zero] using hne
  obtain ⟨q, hq⟩ := statTotal_error_of_missing stat (find_files [] false t).1 h
  refine ⟨⟨q, ?_⟩, ?_, ?_⟩
  · simp [main_model, hlen, hq]
  · simp [main_model, hlen, hq, deletedPaths]
  · intro user2 rfs2
    simp [main_model, hlen, hq]

/-- C10 (witness): a one-file tree whose only candidate's `stat` fails. -/
theorem stat_failure_crashes_before_prompt_witness :
    deletedPaths (main_model
      (some (Sum.inr (FSTree.node [("a # Edit conflict 2024-01-15 x #", 1)]
        FSDirList.dnil)))
      (fun _ => none) "y" []) = [] :=
  (stat_failure_crashes_before_prompt
    (FSTree.node [("a # Edit conflict 2024-01-15 x #", 1)] FSDirList.dnil)
    (fun _ => none) "y" []
    ⟨["a # Edit conflict 2024-01-15 x #"], by decide, rfl⟩).2.1

end Clean
